import Mathlib

/-!
Verification development for the Amazon Best-Sellers-Rank scraper
(`amazon_scraper.py`).  The Python source is shallowly embedded:

* the ranking regex `#([\d,]+)\s+in\s+([^\(]+?)(?:\s*\(|$)` and its
  `re.findall` scan are modelled as an executable backtracking matcher
  over `List Char`;
* the ASIN regex `/dp/([A-Z0-9]{10})` and `re.search` are modelled the
  same way;
* `BeautifulSoup` query results are abstracted into a `Soup` record
  holding the texts the scraper actually reads;
* `get_product_bsr`, `process_products` and the `__main__` startup
  logic are translated as pure functions, with the fetch outcome, the
  timestamp and the inter-request sleep made explicit.
-/

/-- Python `\s` on the ASCII range: the whitespace characters `str.strip`
and the regexes treat as blank. -/
def isWs (c : Char) : Bool :=
  c = ' ' || c = '\t' || c = '\n' || c = '\r' || c = '\x0b' || c = '\x0c'

/-- Characters matched by the rank group `[\d,]`. -/
def isRankChar (c : Char) : Bool :=
  c.isDigit || c = ','

/-- Characters matched by the ASIN group `[A-Z0-9]`. -/
def isAsinChar (c : Char) : Bool :=
  ('A' ≤ c && c ≤ 'Z') || c.isDigit

/-- Python `str.strip()` restricted to ASCII whitespace. -/
def pyStrip (l : List Char) : List Char :=
  ((l.dropWhile isWs).reverse.dropWhile isWs).reverse

/-- Base-10 value of a digit list, as computed by Python `int`. -/
def natOfDigits (ds : List Char) : Nat :=
  ds.foldl (fun n c => n * 10 + (c.toNat - 48)) 0

/-- `int(rank.replace(',', ''))`: commas stripped, then parsed; raises
(`none`) when nothing is left, exactly like `int('')`. -/
def parseRank (r : List Char) : Option Nat :=
  let ds := r.filter (fun c => c != ',')
  if ds.isEmpty then none else some (natOfDigits ds)

/-- One `#<rank> in <category>` entry as appended by the scraper. -/
structure RankingEntry where
  rank : Nat
  rank_formatted : String
  category : String
deriving DecidableEq

/-- The tail alternative `\s*\(` of the ranking regex: after a greedy run
of whitespace the next character must be an opening parenthesis; the
suffix after the parenthesis is returned. -/
def tailParen (q : List Char) : Option (List Char) :=
  match q.dropWhile isWs with
  | c :: r => if c = '(' then some r else none
  | [] => none

/-- The tail alternative `$` of the ranking regex: Python `$` matches at
the end of the string or just before a final newline. -/
def tailEnd (q : List Char) : Bool :=
  match q with
  | [] => true
  | c :: r => c = '\n' && r.isEmpty

/-- The lazy category group `([^\(]+?)` followed by `(?:\s*\(|$)`: grow
the group one character at a time (each character must not be `(`),
checking the tail alternatives after every character, parenthesis
alternative first.  Returns the captured group and the suffix the scan
continues from. -/
def lazyGroup (acc : List Char) : List Char → Option (List Char × List Char)
  | [] => none
  | c :: rest =>
    if c = '(' then none
    else
      match tailParen rest with
      | some r => some (acc ++ [c], r)
      | none =>
        if tailEnd rest then some (acc ++ [c], rest)
        else lazyGroup (acc ++ [c]) rest

/-- Backtracking of the greedy `\s+` after `in`: `t` starts with a run of
at least `k` whitespace characters; try consuming `k` of them, then
`k - 1`, ... down to `1`, running the lazy group on what remains. -/
def tryKs (t : List Char) : Nat → Option (List Char × List Char)
  | 0 => none
  | k + 1 =>
    match lazyGroup [] (t.drop (k + 1)) with
    | some res => some res
    | none => tryKs t k

/-- One attempt of `#([\d,]+)\s+in\s+([^\(]+?)(?:\s*\(|$)` anchored at the
start of `s`.  The first three pieces are deterministic because the
character classes `#`, `[\d,]`, `\s` and the literal `in` are pairwise
disjoint; only the final `\s+`/lazy-group pair backtracks.  Returns the
two capture groups and the suffix after the match. -/
def matchBSRAt (s : List Char) : Option (List Char × List Char × List Char) :=
  match s with
  | [] => none
  | c :: s1 =>
    if c = '#' then
      let r := s1.takeWhile isRankChar
      let s2 := s1.dropWhile isRankChar
      if r.isEmpty then none
      else if (s2.takeWhile isWs).isEmpty then none
      else
        match s2.dropWhile isWs with
        | a :: b :: s4 =>
          if a = 'i' ∧ b = 'n' then
            match tryKs s4 (s4.takeWhile isWs).length with
            | some (g, rest) => some (r, g, rest)
            | none => none
          else none
        | _ => none
    else none

/-- `re.findall` scan: try a match at every position, left to right,
continuing after each successful match.  Every successful match consumes
at least one character, so the input length is enough fuel. -/
def findAllAux : Nat → List Char → List (List Char × List Char)
  | 0, _ => []
  | _ + 1, [] => []
  | fuel + 1, c :: rest =>
    match matchBSRAt (c :: rest) with
    | some (r, g, rem) => (r, g) :: findAllAux fuel rem
    | none => findAllAux fuel rest

/-- `re.findall(r'#([\d,]+)\s+in\s+([^\(]+?)(?:\s*\(|$)', t)`. -/
def findAllBSR (t : List Char) : List (List Char × List Char) :=
  findAllAux t.length t

/-- One step of the `rankings.append({...})` loop: build the entry for
one regex match (`rank` parsed with commas stripped, `rank_formatted`
the raw group, `category` the stripped group) and append it. -/
def entryStep (acc : Option (List RankingEntry)) (m : List Char × List Char) :
    Option (List RankingEntry) :=
  match acc with
  | none => none
  | some l =>
    match parseRank m.1 with
    | none => none
    | some n => some (l ++ [⟨n, String.mk m.1, String.mk (pyStrip m.2)⟩])

/-- The `rankings.append({...})` loop over the matches of one text:
builds the entries in order, aborting (an uncaught `ValueError`) when a
rank group holds no digit. -/
def buildEntries (ms : List (List Char × List Char)) : Option (List RankingEntry) :=
  ms.foldl entryStep (some [])

/-- Ranking extraction from one text blob: regex scan plus entry
construction.  This is the single extraction primitive shared by the
three layout strategies. -/
def extractFromText (t : List Char) : Option (List RankingEntry) :=
  buildEntries (findAllBSR t)

/-- One regex attempt of `/dp/([A-Z0-9]{10})` anchored at the start of
`s`: the literal `/dp/` followed by at least ten ASIN characters; the
group captures the first ten. -/
def asinAt (s : List Char) : Option (List Char) :=
  match s with
  | c1 :: c2 :: c3 :: c4 :: r =>
    if c1 = '/' ∧ c2 = 'd' ∧ c3 = 'p' ∧ c4 = '/' ∧
        (r.take 10).length = 10 ∧ (r.take 10).all isAsinChar
    then some (r.take 10) else none
  | _ => none

/-- `re.search(r'/dp/([A-Z0-9]{10})', url)`: the leftmost position at
which the ASIN pattern matches, if any. -/
def searchAsin : List Char → Option (List Char)
  | [] => none
  | c :: rest =>
    match asinAt (c :: rest) with
    | some a => some a
    | none => searchAsin rest

/-- `asin_match.group(1) if asin_match else "N/A"`. -/
def extract_asin (url : String) : String :=
  match searchAsin url.toList with
  | some a => String.mk a
  | none => "N/A"

/-- The `detailBulletsWrapper_feature_div` container as the scraper
queries it: the text of a `li` whose string matches `Best Sellers Rank`
(if one is found), and otherwise, for each matching `span`, the text of
its enclosing `li` (or `span`) parent when such a parent exists. -/
structure DetailBullets where
  bsrLi : Option String
  bsrSpanParents : List (Option String)
deriving DecidableEq

/-- The query results `get_product_bsr` reads from the parsed page:
the `productTitle` span text, the `td` text following a
`Best Sellers Rank` table header (outer `none` = no such `th`, inner
`none` = no following `td`), the detail-bullets wrapper, and the full
text of the `detailBullets_feature_div` container. -/
structure Soup where
  productTitle : Option String
  bsrThTd : Option (Option String)
  detailBulletsWrapper : Option DetailBullets
  detailBulletsFeature : Option String
deriving DecidableEq

/-- Method 1, the product-details table: extract from the `td` text next
to the `Best Sellers Rank` header, when both exist. -/
def strategyA : Option (Option String) → Option (List RankingEntry)
  | none => some []
  | some none => some []
  | some (some txt) => extractFromText txt.toList

/-- One step of the span loop of Method 2: a span without a `li`/`span`
parent contributes nothing, otherwise the entries extracted from the
parent text are appended. -/
def spanStep (acc : Option (List RankingEntry)) (p : Option String) :
    Option (List RankingEntry) :=
  match acc with
  | none => none
  | some l =>
    match p with
    | none => some l
    | some t =>
      match extractFromText t.toList with
      | none => none
      | some es => some (l ++ es)

/-- The span loop of Method 2: each span with a `li`/`span` parent
contributes the entries extracted from the parent text, in span order;
a rank-parse failure aborts the whole loop. -/
def spansFold (sps : List (Option String)) : Option (List RankingEntry) :=
  sps.foldl spanStep (some [])

/-- Method 2, the detail-bullets section: extract from the matching `li`
text when one is found, otherwise run the span loop. -/
def strategyB : Option DetailBullets → Option (List RankingEntry)
  | none => some []
  | some db =>
    match db.bsrLi with
    | some t => extractFromText t.toList
    | none => spansFold db.bsrSpanParents

/-- Substring test, as Python `'Best Sellers Rank' in bsr_text`. -/
def containsSub (needle : List Char) : List Char → Bool
  | [] => needle.isEmpty
  | c :: rest => needle.isPrefixOf (c :: rest) || containsSub needle rest

/-- Method 3, the newer-layout details section: extract from the whole
container text when it mentions `Best Sellers Rank`. -/
def strategyC : Option String → Option (List RankingEntry)
  | none => some []
  | some t =>
    if containsSub "Best Sellers Rank".toList t.toList
    then extractFromText t.toList else some []

/-- The fallback chain of `get_product_bsr`: Method 1, then Method 2 when
nothing was found, then Method 3 when still nothing; a raised extraction
error (`none`) aborts the whole chain. -/
def computeRankings (soup : Soup) : Option (List RankingEntry) :=
  match strategyA soup.bsrThTd with
  | none => none
  | some r1 =>
    if r1.isEmpty then
      match strategyB soup.detailBulletsWrapper with
      | none => none
      | some r2 =>
        if r2.isEmpty then
          match strategyC soup.detailBulletsFeature with
          | none => none
          | some r3 => some r3
        else some r2
    else some r1

/-- The outcome of `requests.get` + `raise_for_status`: a parsed page, or
a `RequestException` carrying a message. -/
inductive FetchOutcome where
  | success (soup : Soup)
  | requestError (msg : String)
deriving DecidableEq

/-- Message of the `ValueError` raised by `int('')` when a rank group
holds only commas. -/
def intErrorMsg : String := "invalid literal for int() with base 10: \x27\x27"

/-- The dictionary returned by `get_product_bsr`, with `error := none`
standing for an absent `error` key. -/
structure ProductRecord where
  url : String
  asin : String
  title : String
  primary_rank : Option Nat
  primary_rank_formatted : String
  primary_category : String
  all_rankings : List RankingEntry
  timestamp : String
  status : String
  error : Option String
deriving DecidableEq

/-- `get_product_bsr`, with the fetch outcome and the `datetime.now`
timestamp passed explicitly. -/
def get_product_bsr (url : String) (outcome : FetchOutcome) (ts : String) : ProductRecord :=
  match outcome with
  | .requestError msg =>
    { url := url, asin := "N/A", title := "Error", primary_rank := none,
      primary_rank_formatted := "Error", primary_category := "N/A",
      all_rankings := [], timestamp := ts, status := "error", error := some msg }
  | .success soup =>
    let title := match soup.productTitle with
                 | some t => String.mk (pyStrip t.toList)
                 | none => "Title not found"
    let asin := extract_asin url
    match computeRankings soup with
    | none =>
      { url := url, asin := "N/A", title := "Error", primary_rank := none,
        primary_rank_formatted := "Error", primary_category := "N/A",
        all_rankings := [], timestamp := ts, status := "error",
        error := some ("Parsing error: " ++ intErrorMsg) }
    | some rankings =>
      match rankings with
      | [] =>
        { url := url, asin := asin, title := title, primary_rank := none,
          primary_rank_formatted := "Not found", primary_category := "N/A",
          all_rankings := [], timestamp := ts, status := "success", error := none }
      | e :: rest =>
        { url := url, asin := asin, title := title, primary_rank := some e.rank,
          primary_rank_formatted := e.rank_formatted, primary_category := e.category,
          all_rankings := e :: rest, timestamp := ts, status := "success", error := none }

/-- One iteration of the `process_products` loop: append the record for
this URL, and sleep for `delay` when the 1-based counter is still below
the total. -/
def processStep (total delay : Nat)
    (st : List ProductRecord × Nat × Nat)
    (inp : String × FetchOutcome × String) : List ProductRecord × Nat × Nat :=
  (st.1 ++ [get_product_bsr inp.1 inp.2.1 inp.2.2],
   (if st.2.2 < total then st.2.1 + delay else st.2.1),
   st.2.2 + 1)

/-- `process_products(urls, delay)`: each element of `inputs` pairs a URL
with its fetch outcome and timestamp; returns the result list together
with the total time spent in `time.sleep`. -/
def process_products (inputs : List (String × FetchOutcome × String)) (delay : Nat) :
    List ProductRecord × Nat :=
  let r := inputs.foldl (processStep inputs.length delay) ([], 0, 1)
  (r.1, r.2.1)

/-- The URL-list comprehension of `__main__`: strip each line, keep the
non-blank ones starting with `http`. -/
def loadUrls (lines : List String) : List String :=
  lines.filterMap (fun line =>
    let t := pyStrip line.toList
    if t ≠ [] ∧ "http".toList.isPrefixOf t then some (String.mk t) else none)

/-- Observable effects of one run of the `__main__` block. -/
structure RunResult where
  exitCode : Nat
  networkCalls : Nat
  wroteCsv : Bool
  wroteJson : Bool
  records : List ProductRecord
deriving DecidableEq

/-- The `__main__` block: a missing URL file (`none`) or an empty
filtered list exits with status 1 before any request; otherwise every
URL is fetched once and both output files are written. -/
def mainRun (file : Option (List String)) (fetch : String → FetchOutcome) (ts : String) :
    RunResult :=
  match file with
  | none => ⟨1, 0, false, false, []⟩
  | some lines =>
    let urls := loadUrls lines
    if urls.isEmpty then ⟨1, 0, false, false, []⟩
    else
      let res := process_products (urls.map (fun u => (u, fetch u, ts))) 3
      ⟨0, urls.length, true, true, res.1⟩

/-- Did the fetch or parse step raise a handled failure? -/
def handledFailure : FetchOutcome → Bool
  | .requestError _ => true
  | .success soup => (computeRankings soup).isNone

theorem takeWhile_of_append (p : Char → Bool) (xs ys : List Char)
    (h1 : ∀ a ∈ xs, p a = true) (h2 : ∀ y, ys.head? = some y → p y = false) :
    (xs ++ ys).takeWhile p = xs := by
  induction xs with
  | nil =>
    cases ys with
    | nil => rfl
    | cons y t => simp [List.takeWhile_cons, h2 y rfl]
  | cons x t ih =>
    simp only [List.cons_append, List.takeWhile_cons, h1 x (List.mem_cons_self x t),
      if_true, List.cons.injEq, true_and]
    exact ih (fun a ha => h1 a (List.mem_cons_of_mem x ha))

theorem dropWhile_of_append (p : Char → Bool) (xs ys : List Char)
    (h1 : ∀ a ∈ xs, p a = true) (h2 : ∀ y, ys.head? = some y → p y = false) :
    (xs ++ ys).dropWhile p = ys := by
  induction xs with
  | nil =>
    cases ys with
    | nil => rfl
    | cons y t => simp [List.dropWhile_cons, h2 y rfl]
  | cons x t ih =>
    simp only [List.cons_append, List.dropWhile_cons, h1 x (List.mem_cons_self x t), if_true]
    exact ih (fun a ha => h1 a (List.mem_cons_of_mem x ha))

theorem mem_of_takeWhile (p : Char → Bool) :
    ∀ (l : List Char) (a : Char), a ∈ l.takeWhile p → p a = true := by
  intro l
  induction l with
  | nil => intro a ha; simp [List.takeWhile] at ha
  | cons x t ih =>
    intro a ha
    rw [List.takeWhile_cons] at ha
    by_cases hx : p x = true
    · rw [if_pos hx] at ha
      rcases List.mem_cons.mp ha with h | h
      · rw [h]; exact hx
      · exact ih a h
    · rw [if_neg hx] at ha
      exact absurd ha (List.not_mem_nil a)

theorem tailParen_cons_ws (c : Char) (l : List Char) (h : isWs c = true) :
    tailParen (c :: l) = tailParen l := by
  simp [tailParen, List.dropWhile_cons, h]

theorem tailParen_of_no_paren (l : List Char) (h : ∀ c ∈ l, c ≠ '(') :
    tailParen l = none := by
  induction l with
  | nil => rfl
  | cons c t ih =>
    cases hw : isWs c with
    | true =>
      rw [tailParen_cons_ws c t hw]
      exact ih (fun d hd => h d (List.mem_cons_of_mem c hd))
    | false =>
      simp [tailParen, List.dropWhile_cons, hw, h c (List.mem_cons_self c t)]

theorem tailParen_skip (l t : List Char)
    (hp : ∀ c ∈ l, c ≠ '(') (hw : ∃ c ∈ l, isWs c = false) :
    tailParen (l ++ t) = none := by
  induction l with
  | nil => rcases hw with ⟨c, hc, _⟩; exact absurd hc (List.not_mem_nil c)
  | cons c l2 ih =>
    cases hcw : isWs c with
    | true =>
      rw [List.cons_append, tailParen_cons_ws c (l2 ++ t) hcw]
      refine ih (fun d hd => hp d (List.mem_cons_of_mem c hd)) ?hw2
      rcases hw with ⟨d, hd, hdw⟩
      rcases List.mem_cons.mp hd with h | h
      · rw [h] at hdw; rw [hcw] at hdw; exact absurd hdw (by simp)
      · exact ⟨d, h, hdw⟩
    | false =>
      simp [tailParen, List.dropWhile_cons, hcw, hp c (List.mem_cons_self c l2)]

theorem tailEnd_append_false (l t : List Char) (hl : l ≠ []) (ht : t ≠ []) :
    tailEnd (l ++ t) = false := by
  cases l with
  | nil => exact absurd rfl hl
  | cons c l2 =>
    simp only [List.cons_append, tailEnd, Bool.and_eq_false_iff]
    right
    simp [List.isEmpty_iff, List.append_eq_nil, ht]

theorem lazyGroup_to_end (C : List Char)
    (hne : C ≠ []) (hok : ∀ c ∈ C, c ≠ '(' ∧ c ≠ '\n') :
    ∀ acc, lazyGroup acc C = some (acc ++ C, []) := by
  induction C with
  | nil => exact absurd rfl hne
  | cons c C2 ih =>
    intro acc
    have hc := hok c (List.mem_cons_self c C2)
    cases C2 with
    | nil =>
      simp [lazyGroup, hc.1, tailParen, tailEnd]
    | cons d C3 =>
      have hd := hok d (List.mem_cons_of_mem c (List.mem_cons_self d C3))
      have htp : tailParen (d :: C3) = none :=
        tailParen_of_no_paren (d :: C3)
          (fun e he => (hok e (List.mem_cons_of_mem c he)).1)
      have hte : tailEnd (d :: C3) = false := by
        cases C3 with
        | nil => simp [tailEnd, hd.2]
        | cons e C4 => simp [tailEnd]
      have step : lazyGroup acc (c :: d :: C3) = lazyGroup (acc ++ [c]) (d :: C3) := by
        simp [lazyGroup, hc.1, htp, hte]
      rw [step, ih (by simp) (fun e he => hok e (List.mem_cons_of_mem c he)) (acc ++ [c])]
      simp

theorem lazyGroup_to_paren (C : List Char)
    (hne : C ≠ []) (hok : ∀ c ∈ C, c ≠ '(')
    (hlast : ∀ c, C.getLast? = some c → isWs c = false) :
    ∀ acc W Q, (∀ c ∈ W, isWs c = true) →
      lazyGroup acc (C ++ (W ++ '(' :: Q)) = some (acc ++ C, Q) := by
  induction C with
  | nil => exact absurd rfl hne
  | cons c C2 ih =>
    intro acc W Q hW
    have hc := hok c (List.mem_cons_self c C2)
    cases C2 with
    | nil =>
      have htp : tailParen (W ++ '(' :: Q) = some Q := by
        have hdw : (W ++ '(' :: Q).dropWhile isWs = '(' :: Q :=
          dropWhile_of_append isWs W ('(' :: Q) hW
            (fun y hy => by
              simp only [List.head?_cons, Option.some.injEq] at hy
              rw [← hy]; decide)
        simp [tailParen, hdw]
      simp [lazyGroup, hc, htp]
    | cons d C3 =>
      have hlast2 : ∀ e, (d :: C3).getLast? = some e → isWs e = false := by
        intro e he
        exact hlast e (by rw [List.getLast?_cons_cons]; exact he)
      have hex : ∃ e ∈ d :: C3, isWs e = false := by
        cases hgl : (d :: C3).getLast? with
        | none => simp [List.getLast?_eq_none_iff] at hgl
        | some e => exact ⟨e, List.mem_of_getLast?_eq_some hgl, hlast2 e hgl⟩
      have htp : tailParen ((d :: C3) ++ (W ++ '(' :: Q)) = none :=
        tailParen_skip (d :: C3) (W ++ '(' :: Q)
          (fun e he => hok e (List.mem_cons_of_mem c he)) hex
      have hte : tailEnd ((d :: C3) ++ (W ++ '(' :: Q)) = false :=
        tailEnd_append_false (d :: C3) (W ++ '(' :: Q) (by simp)
          (by simp [List.append_eq_nil])
      simp only [List.cons_append] at htp hte
      have step : lazyGroup acc ((c :: d :: C3) ++ (W ++ '(' :: Q)) =
          lazyGroup (acc ++ [c]) ((d :: C3) ++ (W ++ '(' :: Q)) := by
        simp only [List.cons_append]
        simp [lazyGroup, hc, htp, hte]
      rw [step, ih (by simp) (fun e he => hok e (List.mem_cons_of_mem c he)) hlast2
        (acc ++ [c]) W Q hW]
      simp

theorem findAllAux_nil : ∀ (fuel : Nat), findAllAux fuel [] = [] := by
  intro fuel
  cases fuel with
  | zero => rfl
  | succ n => rfl

theorem findAllAux_no_hash : ∀ (fuel : Nat) (s : List Char),
    (∀ c ∈ s, c ≠ '#') → findAllAux fuel s = [] := by
  intro fuel
  induction fuel with
  | zero => intro s _; rfl
  | succ n ih =>
    intro s h
    cases s with
    | nil => rfl
    | cons c rest =>
      have hm : matchBSRAt (c :: rest) = none := by
        simp [matchBSRAt, h c (List.mem_cons_self c rest)]
      simp only [findAllAux, hm]
      exact ih rest (fun d hd => h d (List.mem_cons_of_mem c hd))

theorem matchBSRAt_shape (R C tail rest : List Char)
    (hR1 : R ≠ []) (hR2 : ∀ c ∈ R, isRankChar c = true)
    (hChead : ∀ c, (C ++ tail).head? = some c → isWs c = false)
    (hlg : lazyGroup [] (C ++ tail) = some (C, rest)) :
    matchBSRAt ('#' :: (R ++ ' ' :: 'i' :: 'n' :: ' ' :: (C ++ tail))) =
      some (R, C, rest) := by
  have ht1 : (R ++ ' ' :: 'i' :: 'n' :: ' ' :: (C ++ tail)).takeWhile isRankChar = R :=
    takeWhile_of_append _ _ _ hR2
      (by
        intro y hy
        simp only [List.head?_cons, Option.some.injEq] at hy
        rw [← hy]; decide)
  have hd1 : (R ++ ' ' :: 'i' :: 'n' :: ' ' :: (C ++ tail)).dropWhile isRankChar =
      ' ' :: 'i' :: 'n' :: ' ' :: (C ++ tail) :=
    dropWhile_of_append _ _ _ hR2
      (by
        intro y hy
        simp only [List.head?_cons, Option.some.injEq] at hy
        rw [← hy]; decide)
  have hRe : R.isEmpty = false := by
    cases R with
    | nil => exact absurd rfl hR1
    | cons a t => rfl
  have htwC : (C ++ tail).takeWhile isWs = [] := by
    cases h : C ++ tail with
    | nil => rfl
    | cons c t =>
      have hc : isWs c = false := hChead c (by rw [h]; rfl)
      rw [List.takeWhile_cons, hc]
      simp
  have htwX : (' ' :: 'i' :: 'n' :: ' ' :: (C ++ tail)).takeWhile isWs = [' '] := by
    rw [List.takeWhile_cons, if_pos (by decide), List.takeWhile_cons, if_neg (by decide)]
  have hdwX : (' ' :: 'i' :: 'n' :: ' ' :: (C ++ tail)).dropWhile isWs =
      'i' :: 'n' :: ' ' :: (C ++ tail) := by
    rw [List.dropWhile_cons, if_pos (by decide), List.dropWhile_cons, if_neg (by decide)]
  have htw2 : (' ' :: (C ++ tail)).takeWhile isWs = [' '] := by
    rw [List.takeWhile_cons, if_pos (by decide), htwC]
  have htry : tryKs (' ' :: (C ++ tail)) 1 = some (C, rest) := by
    rw [show (1 : Nat) = 0 + 1 from rfl]
    simp only [tryKs]
    rw [show (' ' :: (C ++ tail)).drop (0 + 1) = C ++ tail from rfl, hlg]
  simp only [matchBSRAt, ht1, hd1, hRe, htwX, hdwX, htw2, htry]
  simp [htry]

theorem dropWhile_eq_self_of_head (l : List Char)
    (h : ∀ c, l.head? = some c → isWs c = false) : l.dropWhile isWs = l := by
  cases l with
  | nil => rfl
  | cons c t =>
    rw [List.dropWhile_cons, h c rfl]
    simp

theorem pyStrip_eq_self (l : List Char)
    (h1 : ∀ c, l.head? = some c → isWs c = false)
    (h2 : ∀ c, l.getLast? = some c → isWs c = false) : pyStrip l = l := by
  unfold pyStrip
  rw [dropWhile_eq_self_of_head l h1]
  rw [dropWhile_eq_self_of_head l.reverse
    (fun c hc => h2 c (by rw [← List.head?_reverse]; exact hc))]
  exact List.reverse_reverse l

theorem filter_comma_ne_nil (R : List Char) (h : ∃ c ∈ R, c.isDigit = true) :
    R.filter (fun c => c != ',') ≠ [] := by
  rcases h with ⟨d, hd, hdig⟩
  have hdc : (d != ',') = true := by
    simp only [bne_iff_ne]
    intro hq
    rw [hq] at hdig
    exact absurd hdig (by decide)
  have : d ∈ R.filter (fun c => c != ',') := List.mem_filter.mpr ⟨hd, hdc⟩
  intro hnil
  rw [hnil] at this
  exact absurd this (List.not_mem_nil d)

theorem parseRank_of_digit (R : List Char) (h : ∃ c ∈ R, c.isDigit = true) :
    parseRank R = some (natOfDigits (R.filter (fun c => c != ','))) := by
  unfold parseRank
  have hne := filter_comma_ne_nil R h
  have : (R.filter (fun c => c != ',')).isEmpty = false := by
    cases hq : R.filter (fun c => c != ',') with
    | nil => exact absurd hq hne
    | cons a t => rfl
  simp [this]

/-- C2.  For ranking text of the shape `#R in C` or `#R in C (...)` —
`R` a nonempty digits-and-commas group containing a digit, `C` a
nonempty category with no parenthesis or newline, not starting or ending
in whitespace — extraction yields exactly one entry: `rank` is the value
of `R` with commas stripped, `rank_formatted` is the original text `R`,
and `category` is `C`, the category text with the parenthetical suffix
dropped and whitespace trimmed. -/
theorem ranking_pattern_extraction
    (R C P : List Char)
    (hR1 : R ≠ []) (hR2 : ∀ c ∈ R, isRankChar c = true)
    (hR3 : ∃ c ∈ R, c.isDigit = true)
    (hC1 : C ≠ []) (hC2 : ∀ c ∈ C, c ≠ '(' ∧ c ≠ '\n')
    (hC3 : ∀ c, C.head? = some c → isWs c = false)
    (hC4 : ∀ c, C.getLast? = some c → isWs c = false)
    (hP : P = [] ∨ ∃ Q, (∀ c ∈ Q, c ≠ '#') ∧ P = ' ' :: '(' :: (Q ++ [')'])) :
    extractFromText ('#' :: (R ++ ' ' :: 'i' :: 'n' :: ' ' :: (C ++ P))) =
      some [⟨natOfDigits (R.filter (fun c => c != ',')), String.mk R, String.mk C⟩] := by
  have hChead : ∀ c, (C ++ P).head? = some c → isWs c = false := by
    intro c hc
    cases C with
    | nil => exact absurd rfl hC1
    | cons a t =>
      simp only [List.cons_append, List.head?_cons, Option.some.injEq] at hc
      exact hc ▸ hC3 a rfl
  have key : ∃ rest, lazyGroup [] (C ++ P) = some (C, rest) ∧
      findAllAux (C ++ P).length rest = [] ∧
      ∀ fuel, findAllAux fuel rest = [] := by
    rcases hP with h0 | ⟨Q, hQ, hQeq⟩
    · refine ⟨[], ?_, ?_, ?_⟩
      · rw [h0, List.append_nil]
        have := lazyGroup_to_end C hC1 hC2 []
        simpa using this
      · exact findAllAux_nil _
      · exact findAllAux_nil
    · refine ⟨Q ++ [')'], ?_, ?_, ?_⟩
      · rw [hQeq]
        have := lazyGroup_to_paren C hC1 (fun c hc => (hC2 c hc).1) hC4 [] [' ']
          (Q ++ [')']) (by intro c hc; simp at hc; rw [hc]; rfl)
        simpa using this
      · exact findAllAux_no_hash _ _ (by
          intro c hc
          rcases List.mem_append.mp hc with h | h
          · exact hQ c h
          · simp at h; rw [h]; decide)
      · intro fuel
        exact findAllAux_no_hash _ _ (by
          intro c hc
          rcases List.mem_append.mp hc with h | h
          · exact hQ c h
          · simp at h; rw [h]; decide)
  rcases key with ⟨rest, hlg, _, hfa⟩
  have hm := matchBSRAt_shape R C P rest hR1 hR2 hChead hlg
  have hfind : findAllBSR ('#' :: (R ++ ' ' :: 'i' :: 'n' :: ' ' :: (C ++ P))) =
      [(R, C)] := by
    unfold findAllBSR
    rw [show ('#' :: (R ++ ' ' :: 'i' :: 'n' :: ' ' :: (C ++ P))).length =
      (R ++ ' ' :: 'i' :: 'n' :: ' ' :: (C ++ P)).length + 1 from rfl]
    simp only [findAllAux, hm]
    rw [hfa]
  unfold extractFromText
  rw [hfind]
  unfold buildEntries
  simp only [List.foldl_cons, List.foldl_nil, entryStep, parseRank_of_digit R hR3]
  rw [pyStrip_eq_self C hC3 hC4]
  simp

/-- What is true of the `rank` of every constructed entry: it is parsed
(commas stripped) from the nonempty digits-and-commas group captured in
`rank_formatted`, and at least one digit survives the stripping. -/
def RankWellFormed (e : RankingEntry) : Prop :=
  ∃ r : List Char, e.rank_formatted = String.mk r ∧ r ≠ [] ∧
    (∀ c ∈ r, isRankChar c = true) ∧
    r.filter (fun c => c != ',') ≠ [] ∧
    e.rank = natOfDigits (r.filter (fun c => c != ','))

theorem parseRank_some (r : List Char) (n : Nat) (h : parseRank r = some n) :
    r.filter (fun c => c != ',') ≠ [] ∧
      n = natOfDigits (r.filter (fun c => c != ',')) := by
  simp only [parseRank] at h
  by_cases he : (r.filter (fun c => c != ',')).isEmpty
  · rw [if_pos he] at h
    exact absurd h (by simp)
  · rw [if_neg he] at h
    constructor
    · intro hq
      rw [hq] at he
      exact he rfl
    · exact (Option.some.injEq _ _ ▸ h).symm

theorem matchBSRAt_rank_chars (s r g rest : List Char)
    (h : matchBSRAt s = some (r, g, rest)) :
    r ≠ [] ∧ ∀ c ∈ r, isRankChar c = true := by
  cases s with
  | nil => exact absurd h (by simp [matchBSRAt])
  | cons c s1 =>
    simp only [matchBSRAt] at h
    by_cases hc : c = '#'
    · rw [if_pos hc] at h
      by_cases he : (s1.takeWhile isRankChar).isEmpty
      · rw [if_pos he] at h
        exact absurd h (by simp)
      · rw [if_neg he] at h
        by_cases hw : ((s1.dropWhile isRankChar).takeWhile isWs).isEmpty
        · rw [if_pos hw] at h
          exact absurd h (by simp)
        · rw [if_neg hw] at h
          have hr : r = s1.takeWhile isRankChar := by
            cases hd : (s1.dropWhile isRankChar).dropWhile isWs with
            | nil => rw [hd] at h; exact absurd h (by simp)
            | cons a tl =>
              cases tl with
              | nil => rw [hd] at h; exact absurd h (by simp)
              | cons b s4 =>
                rw [hd] at h
                dsimp only at h
                by_cases hab : a = 'i' ∧ b = 'n'
                · rw [if_pos hab] at h
                  cases htk : tryKs s4 (s4.takeWhile isWs).length with
                  | none => rw [htk] at h; exact absurd h (by simp)
                  | some v =>
                    obtain ⟨g2, rest2⟩ := v
                    rw [htk] at h
                    simp only [Option.some.injEq, Prod.mk.injEq] at h
                    exact h.1.symm
                · rw [if_neg hab] at h
                  exact absurd h (by simp)
          constructor
          · rw [hr]
            intro hq
            rw [hq] at he
            exact he rfl
          · rw [hr]
            exact fun d hd => mem_of_takeWhile isRankChar s1 d hd
    · rw [if_neg hc] at h
      exact absurd h (by simp)

theorem findAllAux_rank_chars : ∀ (fuel : Nat) (s : List Char)
    (m : List Char × List Char), m ∈ findAllAux fuel s →
    m.1 ≠ [] ∧ ∀ c ∈ m.1, isRankChar c = true := by
  intro fuel
  induction fuel with
  | zero =>
    intro s m hm
    exact absurd hm (by simp [findAllAux])
  | succ n ih =>
    intro s m hm
    cases s with
    | nil => exact absurd hm (by simp [findAllAux])
    | cons c rest =>
      cases hmt : matchBSRAt (c :: rest) with
      | some v =>
        obtain ⟨r, g, rem⟩ := v
        simp only [findAllAux, hmt] at hm
        rcases List.mem_cons.mp hm with h | h
        · rw [h]
          exact matchBSRAt_rank_chars (c :: rest) r g rem hmt
        · exact ih rem m h
      | none =>
        simp only [findAllAux, hmt] at hm
        exact ih rest m hm

theorem foldl_entryStep_none (ms : List (List Char × List Char)) :
    ms.foldl entryStep none = none := by
  induction ms with
  | nil => rfl
  | cons m tl ih => simp only [List.foldl_cons, entryStep]; exact ih

theorem foldl_entryStep_wf :
    ∀ (ms : List (List Char × List Char)) (acc l : List RankingEntry),
      (∀ m ∈ ms, m.1 ≠ [] ∧ ∀ c ∈ m.1, isRankChar c = true) →
      (∀ e ∈ acc, RankWellFormed e) →
      ms.foldl entryStep (some acc) = some l →
      ∀ e ∈ l, RankWellFormed e := by
  intro ms
  induction ms with
  | nil =>
    intro acc l _ hacc h
    simp only [List.foldl_nil, Option.some.injEq] at h
    rw [← h]
    exact hacc
  | cons m tl ih =>
    intro acc l hms hacc h
    simp only [List.foldl_cons, entryStep] at h
    cases hp : parseRank m.1 with
    | none =>
      rw [hp] at h
      rw [foldl_entryStep_none tl] at h
      exact absurd h (by simp)
    | some n =>
      rw [hp] at h
      refine ih (acc ++ [⟨n, String.mk m.1, String.mk (pyStrip m.2)⟩]) l
        (fun m2 hm2 => hms m2 (List.mem_cons_of_mem m hm2)) ?_ h
      intro e he
      rcases List.mem_append.mp he with h2 | h2
      · exact hacc e h2
      · have : e = ⟨n, String.mk m.1, String.mk (pyStrip m.2)⟩ := by
          rcases List.mem_cons.mp h2 with h3 | h3
          · exact h3
          · exact absurd h3 (List.not_mem_nil e)
        rcases parseRank_some m.1 n hp with ⟨hfne, hval⟩
        rcases hms m (List.mem_cons_self m tl) with ⟨hne, hch⟩
        exact ⟨m.1, by rw [this], hne, hch, hfne, by rw [this]; exact hval⟩

theorem extractFromText_wf (t : List Char) (l : List RankingEntry)
    (h : extractFromText t = some l) : ∀ e ∈ l, RankWellFormed e := by
  refine foldl_entryStep_wf (findAllBSR t) [] l ?_ (by intro e he; cases he) h
  intro m hm
  exact findAllAux_rank_chars t.length t m hm

theorem foldl_spanStep_none (sps : List (Option String)) :
    sps.foldl spanStep none = none := by
  induction sps with
  | nil => rfl
  | cons p tl ih => simp only [List.foldl_cons, spanStep]; exact ih

theorem foldl_spanStep_wf :
    ∀ (sps : List (Option String)) (acc l : List RankingEntry),
      (∀ e ∈ acc, RankWellFormed e) →
      sps.foldl spanStep (some acc) = some l →
      ∀ e ∈ l, RankWellFormed e := by
  intro sps
  induction sps with
  | nil =>
    intro acc l hacc h
    simp only [List.foldl_nil, Option.some.injEq] at h
    rw [← h]
    exact hacc
  | cons p tl ih =>
    intro acc l hacc h
    simp only [List.foldl_cons, spanStep] at h
    cases p with
    | none => exact ih acc l hacc h
    | some t =>
      dsimp only at h
      cases hx : extractFromText t.toList with
      | none =>
        rw [hx] at h
        rw [foldl_spanStep_none tl] at h
        exact absurd h (by simp)
      | some es =>
        rw [hx] at h
        refine ih (acc ++ es) l ?_ h
        intro e he
        rcases List.mem_append.mp he with h2 | h2
        · exact hacc e h2
        · exact extractFromText_wf t.toList es hx e h2

theorem strategyA_wf (x : Option (Option String)) (l : List RankingEntry)
    (h : strategyA x = some l) : ∀ e ∈ l, RankWellFormed e := by
  match x with
  | none =>
    simp only [strategyA, Option.some.injEq] at h
    rw [← h]; intro e he; cases he
  | some none =>
    simp only [strategyA, Option.some.injEq] at h
    rw [← h]; intro e he; cases he
  | some (some txt) => exact extractFromText_wf txt.toList l h

theorem strategyB_wf (x : Option DetailBullets) (l : List RankingEntry)
    (h : strategyB x = some l) : ∀ e ∈ l, RankWellFormed e := by
  match x with
  | none =>
    simp only [strategyB, Option.some.injEq] at h
    rw [← h]; intro e he; cases he
  | some db =>
    simp only [strategyB] at h
    cases hli : db.bsrLi with
    | some t =>
      rw [hli] at h
      exact extractFromText_wf t.toList l h
    | none =>
      rw [hli] at h
      exact foldl_spanStep_wf db.bsrSpanParents [] l (by intro e he; cases he) h

theorem strategyC_wf (x : Option String) (l : List RankingEntry)
    (h : strategyC x = some l) : ∀ e ∈ l, RankWellFormed e := by
  match x with
  | none =>
    simp only [strategyC, Option.some.injEq] at h
    rw [← h]; intro e he; cases he
  | some t =>
    simp only [strategyC] at h
    by_cases hc : containsSub "Best Sellers Rank".toList t.toList
    · rw [if_pos hc] at h
      exact extractFromText_wf t.toList l h
    · rw [if_neg hc] at h
      simp only [Option.some.injEq] at h
      rw [← h]; intro e he; cases he

theorem computeRankings_wf (soup : Soup) (l : List RankingEntry)
    (h : computeRankings soup = some l) : ∀ e ∈ l, RankWellFormed e := by
  simp only [computeRankings] at h
  cases h1 : strategyA soup.bsrThTd with
  | none => rw [h1] at h; exact absurd h (by simp)
  | some r1 =>
    rw [h1] at h
    dsimp only at h
    by_cases he1 : r1.isEmpty
    · rw [if_pos he1] at h
      cases h2 : strategyB soup.detailBulletsWrapper with
      | none => rw [h2] at h; exact absurd h (by simp)
      | some r2 =>
        rw [h2] at h
        dsimp only at h
        by_cases he2 : r2.isEmpty
        · rw [if_pos he2] at h
          cases h3 : strategyC soup.detailBulletsFeature with
          | none => rw [h3] at h; exact absurd h (by simp)
          | some r3 =>
            rw [h3] at h
            simp only [Option.some.injEq] at h
            rw [← h]
            exact strategyC_wf soup.detailBulletsFeature r3 h3
        · rw [if_neg he2] at h
          simp only [Option.some.injEq] at h
          rw [← h]
          exact strategyB_wf soup.detailBulletsWrapper r2 h2
    · rw [if_neg he1] at h
      simp only [Option.some.injEq] at h
      rw [← h]
      exact strategyA_wf soup.bsrThTd r1 h1

/-- A page whose details table holds the given `td` text next to the
`Best Sellers Rank` header, with no other content. -/
def soupTable (txt : String) : Soup :=
  ⟨none, some (some txt), none, none⟩

/-- C3 (amended): every `RankingEntry` constructed by extraction has its
`rank` a nonnegative integer parsed, commas stripped, from the nonempty
digit-and-comma group recorded in `rank_formatted`. -/
theorem extraction_rank_wellformed (soup : Soup) (l : List RankingEntry)
    (h : computeRankings soup = some l) : ∀ e ∈ l, RankWellFormed e :=
  computeRankings_wf soup l h

/-- C3 witness: the entry extracted from `#1,234 in Books` is well
formed in the amended sense. -/
theorem extraction_rank_wellformed_witness :
    computeRankings (soupTable "#1,234 in Books") = some [⟨1234, "1,234", "Books"⟩] ∧
    RankWellFormed ⟨1234, "1,234", "Books"⟩ := by
  refine ⟨by decide, ?_⟩
  exact extraction_rank_wellformed (soupTable "#1,234 in Books")
    [⟨1234, "1,234", "Books"⟩] (by decide) ⟨1234, "1,234", "Books"⟩ (by simp)

/-- C3 counterexample: extraction is not restricted to positive ranks —
the table text `#0 in Books` yields an entry whose `rank` is `0`. -/
theorem extraction_rank_not_always_positive :
    ¬ (∀ (soup : Soup) (l : List RankingEntry),
        computeRankings soup = some l → ∀ e ∈ l, 0 < e.rank) := by
  intro h
  have h0 := h (soupTable "#0 in Books") [⟨0, "0", "Books"⟩] (by decide)
    ⟨0, "0", "Books"⟩ (by simp)
  exact absurd h0 (by decide)

/-- C4: when the details-table strategy yields at least one entry, the
extractor returns exactly those entries, and the result is unchanged
under arbitrary contents of the containers Strategies B and C read. -/
theorem strategyA_short_circuit (soup : Soup) (e : RankingEntry) (l : List RankingEntry)
    (h : strategyA soup.bsrThTd = some (e :: l)) :
    computeRankings soup = some (e :: l) ∧
    ∀ db dbf, computeRankings
        { soup with detailBulletsWrapper := db, detailBulletsFeature := dbf } =
      some (e :: l) := by
  have key : ∀ s2 : Soup, s2.bsrThTd = soup.bsrThTd →
      computeRankings s2 = some (e :: l) := by
    intro s2 hs2
    simp only [computeRankings, hs2, h]
    simp
  exact ⟨key soup rfl, fun db dbf => key _ rfl⟩

/-- A page with every container populated, so that all three strategies
have something they could read. -/
def soupFull : Soup :=
  ⟨some " My Title ", some (some "#1,234 in Electronics (See Top 100)"),
   some ⟨some "#9 in Ignored", [some "#10 in AlsoIgnored"]⟩,
   some "Best Sellers Rank #8 in StillIgnored"⟩

/-- C4 witness: on `soupFull`, Strategy A yields one entry and the
extractor returns exactly that entry even though the other containers
hold different rankings. -/
theorem strategyA_short_circuit_witness :
    strategyA soupFull.bsrThTd = some [⟨1234, "1,234", "Electronics"⟩] ∧
    computeRankings soupFull = some [⟨1234, "1,234", "Electronics"⟩] :=
  ⟨by decide,
   (strategyA_short_circuit soupFull ⟨1234, "1,234", "Electronics"⟩ [] (by decide)).1⟩

/-- C5: a successful record's primary fields mirror the first element of
`all_rankings` when it is non-empty, and are `none`/`"N/A"` when it is
empty. -/
theorem success_primary_mirrors_first (url : String) (outcome : FetchOutcome) (ts : String)
    (hs : (get_product_bsr url outcome ts).status = "success") :
    ((get_product_bsr url outcome ts).all_rankings = [] →
      (get_product_bsr url outcome ts).primary_rank = none ∧
      (get_product_bsr url outcome ts).primary_category = "N/A") ∧
    (∀ e rest, (get_product_bsr url outcome ts).all_rankings = e :: rest →
      (get_product_bsr url outcome ts).primary_rank = some e.rank ∧
      (get_product_bsr url outcome ts).primary_rank_formatted = e.rank_formatted ∧
      (get_product_bsr url outcome ts).primary_category = e.category) := by
  cases outcome with
  | requestError msg => exact absurd hs (by simp [get_product_bsr])
  | success soup =>
    cases hr : computeRankings soup with
    | none => exact absurd hs (by simp [get_product_bsr, hr])
    | some rankings =>
      cases rankings with
      | nil =>
        constructor
        · intro _
          simp [get_product_bsr, hr]
        · intro e rest hE
          simp [get_product_bsr, hr] at hE
      | cons e0 rest0 =>
        constructor
        · intro hE
          simp [get_product_bsr, hr] at hE
        · intro e rest hE
          simp only [get_product_bsr, hr] at hE
          have h1 : e0 = e := (List.cons.inj hE).1
          simp [get_product_bsr, hr, ← h1]

/-- A concrete successful record: one ranking entry found in the details
table. -/
def demoSuccessRecord : ProductRecord :=
  get_product_bsr "u"
    (FetchOutcome.success (soupTable "#1,234 in Electronics (See Top 100)")) "t"

/-- C5 witness: on a concrete successful fetch the primary fields mirror
the single extracted entry. -/
theorem success_primary_mirrors_first_witness :
    demoSuccessRecord.status = "success" ∧
    demoSuccessRecord.all_rankings = [⟨1234, "1,234", "Electronics"⟩] ∧
    (demoSuccessRecord.primary_rank = some 1234 ∧
     demoSuccessRecord.primary_rank_formatted = "1,234" ∧
     demoSuccessRecord.primary_category = "Electronics") :=
  ⟨by decide, by decide,
   (success_primary_mirrors_first "u"
      (FetchOutcome.success (soupTable "#1,234 in Electronics (See Top 100)")) "t"
      (by decide)).2 ⟨1234, "1,234", "Electronics"⟩ [] (by decide)⟩

/-- C6: `status = "error"` exactly when the fetch or parse step raised a
handled failure; an error record has all ranking fields nulled and a
non-absent `error` message; a non-error record has no `error` key; and a
parse failure is marked with the distinct `Parsing error: ` message
prefix. -/
theorem error_status_iff_handled_failure (url : String) (outcome : FetchOutcome) (ts : String) :
    ((get_product_bsr url outcome ts).status = "error" ↔ handledFailure outcome = true) ∧
    ((get_product_bsr url outcome ts).status = "error" →
      (get_product_bsr url outcome ts).primary_rank = none ∧
      (get_product_bsr url outcome ts).primary_rank_formatted = "Error" ∧
      (get_product_bsr url outcome ts).primary_category = "N/A" ∧
      (get_product_bsr url outcome ts).all_rankings = [] ∧
      (get_product_bsr url outcome ts).error ≠ none) ∧
    ((get_product_bsr url outcome ts).status ≠ "error" →
      (get_product_bsr url outcome ts).error = none) ∧
    (∀ soup, outcome = FetchOutcome.success soup → computeRankings soup = none →
      (get_product_bsr url outcome ts).error = some ("Parsing error: " ++ intErrorMsg)) := by
  cases outcome with
  | requestError msg =>
    refine ⟨?_, ?_, ?_, ?_⟩
    · simp [get_product_bsr, handledFailure]
    · intro _
      simp [get_product_bsr]
    · intro hs
      exact absurd (by simp [get_product_bsr] : (get_product_bsr url
        (FetchOutcome.requestError msg) ts).status = "error") hs
    · intro soup hcontra
      exact absurd hcontra (by simp)
  | success soup =>
    cases hr : computeRankings soup with
    | none =>
      refine ⟨?_, ?_, ?_, ?_⟩
      · simp [get_product_bsr, handledFailure, hr]
      · intro _
        simp [get_product_bsr, hr]
      · intro hs
        exact absurd (by simp [get_product_bsr, hr] : (get_product_bsr url
          (FetchOutcome.success soup) ts).status = "error") hs
      · intro soup2 heq _
        have hs2 : soup2 = soup := (FetchOutcome.success.inj heq.symm)
        simp [get_product_bsr, hr]
    | some rankings =>
      have hstat : (get_product_bsr url (FetchOutcome.success soup) ts).status = "success" := by
        cases rankings with
        | nil => simp [get_product_bsr, hr]
        | cons e0 rest0 => simp [get_product_bsr, hr]
      have herr : (get_product_bsr url (FetchOutcome.success soup) ts).error = none := by
        cases rankings with
        | nil => simp [get_product_bsr, hr]
        | cons e0 rest0 => simp [get_product_bsr, hr]
      refine ⟨?_, ?_, ?_, ?_⟩
      · rw [hstat]
        simp [handledFailure, hr]
      · intro hs
        rw [hstat] at hs
        exact absurd hs (by decide)
      · intro _
        exact herr
      · intro soup2 heq hn
        have hs2 : soup2 = soup := FetchOutcome.success.inj heq.symm
        rw [hs2] at hn
        rw [hn] at hr
        exact absurd hr (by simp)

/-- A record produced by a failed fetch of a URL that does carry a valid
ASIN segment. -/
def demoErrorRecord : ProductRecord :=
  get_product_bsr "https://www.amazon.com/dp/B08N5WRWNW"
    (FetchOutcome.requestError "HTTPSConnectionPool: Read timed out.") "t"

/-- C6 witness: a concrete fetch failure yields an error record with the
ranking fields nulled and a present error message. -/
theorem error_status_iff_handled_failure_witness :
    demoErrorRecord.status = "error" ∧
    (demoErrorRecord.primary_rank = none ∧
     demoErrorRecord.primary_rank_formatted = "Error" ∧
     demoErrorRecord.primary_category = "N/A" ∧
     demoErrorRecord.all_rankings = [] ∧
     demoErrorRecord.error ≠ none) :=
  ⟨by decide,
   (error_status_iff_handled_failure "https://www.amazon.com/dp/B08N5WRWNW"
      (FetchOutcome.requestError "HTTPSConnectionPool: Read timed out.") "t").2.1
     (by decide)⟩

/-- C10: every error record carries `asin = "N/A"` and `title = "Error"`,
whatever the URL holds. -/
theorem error_record_asin_title (url : String) (outcome : FetchOutcome) (ts : String)
    (hs : (get_product_bsr url outcome ts).status = "error") :
    (get_product_bsr url outcome ts).asin = "N/A" ∧
    (get_product_bsr url outcome ts).title = "Error" := by
  cases outcome with
  | requestError msg => simp [get_product_bsr]
  | success soup =>
    cases hr : computeRankings soup with
    | none => simp [get_product_bsr, hr]
    | some rankings =>
      have hstat : (get_product_bsr url (FetchOutcome.success soup) ts).status = "success" := by
        cases rankings with
        | nil => simp [get_product_bsr, hr]
        | cons e0 rest0 => simp [get_product_bsr, hr]
      rw [hstat] at hs
      exact absurd hs (by decide)

/-- C10 witness: the failed fetch of a URL whose `/dp/` segment holds the
valid ASIN `B08N5WRWNW` still records `asin = "N/A"`, `title = "Error"`,
although identifier extraction alone would have succeeded on it. -/
theorem error_record_asin_title_witness :
    extract_asin "https://www.amazon.com/dp/B08N5WRWNW" = "B08N5WRWNW" ∧
    demoErrorRecord.status = "error" ∧
    (demoErrorRecord.asin = "N/A" ∧ demoErrorRecord.title = "Error") :=
  ⟨by decide, by decide,
   error_record_asin_title "https://www.amazon.com/dp/B08N5WRWNW"
     (FetchOutcome.requestError "HTTPSConnectionPool: Read timed out.") "t" (by decide)⟩

theorem foldl_processStep_records (total delay : Nat) :
    ∀ (l : List (String × FetchOutcome × String)) (acc : List ProductRecord) (s i : Nat),
      (l.foldl (processStep total delay) (acc, s, i)).1 =
        acc ++ l.map (fun inp => get_product_bsr inp.1 inp.2.1 inp.2.2) := by
  intro l
  induction l with
  | nil =>
    intro acc s i
    simp
  | cons x tl ih =>
    intro acc s i
    simp only [List.foldl_cons, List.map_cons, processStep]
    rw [ih]
    simp

theorem foldl_processStep_sleep (total delay : Nat) :
    ∀ (l : List (String × FetchOutcome × String)) (acc : List ProductRecord) (s i : Nat),
      i + l.length = total + 1 →
      (l.foldl (processStep total delay) (acc, s, i)).2.1 =
        s + (l.length - 1) * delay := by
  intro l
  induction l with
  | nil =>
    intro acc s i _
    simp
  | cons x tl ih =>
    intro acc s i h
    simp only [List.length_cons] at h
    simp only [List.foldl_cons, processStep]
    cases tl with
    | nil =>
      have hge : ¬ i < total := by
        simp only [List.length_nil] at h
        omega
      rw [if_neg hge]
      simp
    | cons y tl2 =>
      have hlt : i < total := by
        simp only [List.length_cons] at h
        omega
      rw [if_pos hlt]
      rw [ih (acc ++ [get_product_bsr x.1 x.2.1 x.2.2]) (s + delay) (i + 1) (by omega)]
      simp only [List.length_cons, Nat.add_sub_cancel]
      ring

/-- C1: the batch runner returns exactly one record per input, in input
order; each record is `get_product_bsr` of its own input alone, so a
fetch or parse failure on one URL cannot affect any other. -/
theorem process_products_one_record_per_url
    (inputs : List (String × FetchOutcome × String)) (delay : Nat) :
    (process_products inputs delay).1 =
      inputs.map (fun inp => get_product_bsr inp.1 inp.2.1 inp.2.2) ∧
    (process_products inputs delay).1.length = inputs.length := by
  have h := foldl_processStep_records inputs.length delay inputs [] 0 1
  constructor
  · simpa [process_products] using h
  · have h2 : (process_products inputs delay).1 =
        inputs.map (fun inp => get_product_bsr inp.1 inp.2.1 inp.2.2) := by
      simpa [process_products] using h
    rw [h2, List.length_map]

/-- C9: total time spent sleeping across a run is exactly
`(number of URLs - 1) * delay`: one sleep after every URL but the
last. -/
theorem process_products_sleep_total
    (inputs : List (String × FetchOutcome × String)) (delay : Nat) :
    (process_products inputs delay).2 = (inputs.length - 1) * delay := by
  have h := foldl_processStep_sleep inputs.length delay inputs [] 0 1 (by omega)
  simpa [process_products] using h

theorem asinAt_sound (s a : List Char) (h : asinAt s = some a) :
    a.length = 10 ∧ a.all isAsinChar = true ∧
    ∃ suf, s = '/' :: 'd' :: 'p' :: '/' :: (a ++ suf) := by
  match s with
  | [] => exact absurd h (by simp [asinAt])
  | [c1] => exact absurd h (by simp [asinAt])
  | [c1, c2] => exact absurd h (by simp [asinAt])
  | [c1, c2, c3] => exact absurd h (by simp [asinAt])
  | c1 :: c2 :: c3 :: c4 :: r =>
    simp only [asinAt] at h
    by_cases hcond : c1 = '/' ∧ c2 = 'd' ∧ c3 = 'p' ∧ c4 = '/' ∧
        (r.take 10).length = 10 ∧ (r.take 10).all isAsinChar
    · rw [if_pos hcond] at h
      obtain ⟨h1, h2, h3, h4, h5, h6⟩ := hcond
      have ha : a = r.take 10 := (Option.some.inj h).symm
      refine ⟨by rw [ha]; exact h5, by rw [ha]; exact h6, ⟨r.drop 10, ?_⟩⟩
      rw [h1, h2, h3, h4, ha]
      simp [List.take_append_drop]
    · rw [if_neg hcond] at h
      exact absurd h (by simp)

theorem searchAsin_sound : ∀ (u a : List Char), searchAsin u = some a →
    a.length = 10 ∧ a.all isAsinChar = true ∧
    ∃ pre suf, u = pre ++ '/' :: 'd' :: 'p' :: '/' :: (a ++ suf) := by
  intro u
  induction u with
  | nil =>
    intro a h
    exact absurd h (by simp [searchAsin])
  | cons c rest ih =>
    intro a h
    simp only [searchAsin] at h
    cases hA : asinAt (c :: rest) with
    | some a2 =>
      rw [hA] at h
      have ha : a2 = a := Option.some.inj h
      rcases asinAt_sound (c :: rest) a2 hA with ⟨h1, h2, suf, h3⟩
      exact ⟨ha ▸ h1, ha ▸ h2, [], suf, by rw [← ha]; exact h3⟩
    | none =>
      rw [hA] at h
      rcases ih a h with ⟨h1, h2, pre, suf, h3⟩
      exact ⟨h1, h2, c :: pre, suf, by rw [List.cons_append, h3]⟩

theorem asinAt_complete (a suf : List Char) (h10 : a.length = 10)
    (hall : a.all isAsinChar = true) :
    asinAt ('/' :: 'd' :: 'p' :: '/' :: (a ++ suf)) = some a := by
  have htake : (a ++ suf).take 10 = a := List.take_left' h10
  simp only [asinAt, htake]
  simp [h10, hall]

theorem searchAsin_complete : ∀ (pre a suf : List Char), a.length = 10 →
    a.all isAsinChar = true →
    ∃ b, searchAsin (pre ++ '/' :: 'd' :: 'p' :: '/' :: (a ++ suf)) = some b := by
  intro pre
  induction pre with
  | nil =>
    intro a suf h10 hall
    refine ⟨a, ?_⟩
    simp only [List.nil_append, searchAsin]
    rw [asinAt_complete a suf h10 hall]
  | cons c pre2 ih =>
    intro a suf h10 hall
    simp only [List.cons_append, searchAsin]
    cases hA : asinAt (c :: (pre2 ++ '/' :: 'd' :: 'p' :: '/' :: (a ++ suf))) with
    | some b => exact ⟨b, rfl⟩
    | none =>
      rcases ih a suf h10 hall with ⟨b, hb⟩
      exact ⟨b, hb⟩

/-- C7: identifier extraction returns `"N/A"` exactly when the URL has no
`/dp/` segment followed by ten uppercase-alphanumeric characters; when it
does not return `"N/A"`, the result is a ten-character
uppercase-alphanumeric group occurring right after a `/dp/` segment of
the URL. -/
theorem asin_extraction_correct (url : String) :
    (extract_asin url = "N/A" ↔
      ¬ ∃ pre a suf, url.toList = pre ++ '/' :: 'd' :: 'p' :: '/' :: (a ++ suf) ∧
        a.length = 10 ∧ a.all isAsinChar = true) ∧
    (extract_asin url ≠ "N/A" →
      (extract_asin url).toList.length = 10 ∧
      (extract_asin url).toList.all isAsinChar = true ∧
      ∃ pre suf, url.toList =
        pre ++ '/' :: 'd' :: 'p' :: '/' :: ((extract_asin url).toList ++ suf)) := by
  have hcase : extract_asin url = (match searchAsin url.toList with
      | some a => String.mk a
      | none => "N/A") := rfl
  cases hS : searchAsin url.toList with
  | none =>
    have hv : extract_asin url = "N/A" := by rw [hcase, hS]
    constructor
    · rw [hv]
      constructor
      · intro _
        rintro ⟨pre, a, suf, hdec, h10, hall⟩
        rcases searchAsin_complete pre a suf h10 hall with ⟨b, hb⟩
        rw [← hdec, hS] at hb
        exact absurd hb (by simp)
      · intro _
        rfl
    · intro hne
      exact absurd hv hne
  | some a =>
    have hv : extract_asin url = String.mk a := by rw [hcase, hS]
    rcases searchAsin_sound url.toList a hS with ⟨h10, hall, pre, suf, hdec⟩
    have hmk : (String.mk a).toList = a := rfl
    have hne : String.mk a ≠ "N/A" := by
      intro hq
      have hq2 : a = "N/A".toList := congrArg String.toList hq
      rw [hq2] at h10
      exact absurd h10 (by decide)
    constructor
    · rw [hv]
      constructor
      · intro hq
        exact absurd hq hne
      · intro hq
        exact (hq ⟨pre, a, suf, hdec, h10, hall⟩).elim
    · intro _
      rw [hv, hmk]
      exact ⟨h10, hall, pre, suf, hdec⟩

/-- C7 witness: the canonical product URL yields its ASIN, which indeed
sits right after a `/dp/` segment. -/
theorem asin_extraction_correct_witness :
    extract_asin "https://www.amazon.com/dp/B08N5WRWNW" = "B08N5WRWNW" ∧
    ∃ pre suf, "https://www.amazon.com/dp/B08N5WRWNW".toList =
      pre ++ '/' :: 'd' :: 'p' :: '/' ::
        (("https://www.amazon.com/dp/B08N5WRWNW" |> extract_asin).toList ++ suf) :=
  ⟨by decide,
   ((asin_extraction_correct "https://www.amazon.com/dp/B08N5WRWNW").2
      (by decide)).2.2⟩

/-- C8: a missing URL file or one with no valid URL lines terminates the
run with exit status 1, before any network request and without writing
either output file. -/
theorem empty_url_list_fatal (file : Option (List String)) (fetch : String → FetchOutcome)
    (ts : String)
    (h : file = none ∨ ∃ lines, file = some lines ∧ loadUrls lines = []) :
    (mainRun file fetch ts).exitCode = 1 ∧
    (mainRun file fetch ts).networkCalls = 0 ∧
    (mainRun file fetch ts).wroteCsv = false ∧
    (mainRun file fetch ts).wroteJson = false := by
  rcases h with h | ⟨lines, hf, hurls⟩
  · rw [h]
    exact ⟨rfl, rfl, rfl, rfl⟩
  · rw [hf]
    simp only [mainRun, hurls]
    simp

/-- C8 witness: a URL file holding only blank and non-`http` lines is
fatal with no requests and no output files. -/
theorem empty_url_list_fatal_witness :
    loadUrls ["not a url", "", "   ", "ftp://example.com"] = [] ∧
    ((mainRun (some ["not a url", "", "   ", "ftp://example.com"])
        (fun _ => FetchOutcome.requestError "unreachable") "t").exitCode = 1 ∧
     (mainRun (some ["not a url", "", "   ", "ftp://example.com"])
        (fun _ => FetchOutcome.requestError "unreachable") "t").networkCalls = 0 ∧
     (mainRun (some ["not a url", "", "   ", "ftp://example.com"])
        (fun _ => FetchOutcome.requestError "unreachable") "t").wroteCsv = false ∧
     (mainRun (some ["not a url", "", "   ", "ftp://example.com"])
        (fun _ => FetchOutcome.requestError "unreachable") "t").wroteJson = false) :=
  ⟨by decide,
   empty_url_list_fatal (some ["not a url", "", "   ", "ftp://example.com"])
     (fun _ => FetchOutcome.requestError "unreachable") "t"
     (Or.inr ⟨["not a url", "", "   ", "ftp://example.com"], rfl, by decide⟩)⟩

/-- C2 witness: `#1,234 in Some Category` extracts to rank 1234,
formatted `1,234`, category `Some Category`. -/
theorem ranking_pattern_extraction_witness :
    extractFromText ('#' :: ("1,234".toList ++ ' ' :: 'i' :: 'n' :: ' ' ::
        ("Some Category".toList ++ ([] : List Char)))) =
      some [⟨natOfDigits ("1,234".toList.filter (fun c => c != ',')),
             String.mk "1,234".toList, String.mk "Some Category".toList⟩] :=
  ranking_pattern_extraction "1,234".toList "Some Category".toList []
    (by decide) (by decide) (by decide) (by decide) (by decide)
    (by
      intro c hc
      have h2 : 'S' = c := Option.some.inj hc
      rw [← h2]
      decide)
    (by
      intro c hc
      have h2 : 'y' = c := Option.some.inj hc
      rw [← h2]
      decide)
    (Or.inl rfl)
